import Mathlib

/-!
Verification of the brainfuck interpreter repository (src/parser.rs,
src/interpreter.rs, src/main.rs).  The parser (Parser::parse_all) and the
instruction interpreter (Interpreter::run_all) are shallowly embedded below;
theorems at the end of the file settle the specification claims.
-/

namespace BF

/-- Operators of the language, embedding `enum Op` of src/parser.rs.
`inp` stands for the `In` variant (`In` is not a legal Lean name). -/
inductive Op where
  | add
  | sub
  | left
  | right
  | out
  | inp
  | jmpZero
  | jmpNonZero
deriving DecidableEq, Repr

/-- An instruction: an operator paired with its operand, embedding
`struct Cmd` of src/parser.rs. -/
structure Cmd where
  operator : Op
  operand : Nat
deriving DecidableEq, Repr

/-- Parse errors, embedding `enum ParseError` of src/parser.rs. -/
inductive ParseError where
  | unclosedBracket (i : Nat)
  | unopenedBracket (i : Nat)
deriving DecidableEq, Repr

/-- The inner `while next.is_some_and(|next| next == operator)` loop of
`Parser::parse_all` (src/parser.rs:94-97): count the leading tokens equal to
`op` and return that count together with the remaining tokens (the first
differing token is not consumed). -/
def takeRun (op : Op) : List Op → Nat × List Op
  | [] => (0, [])
  | t :: ts =>
    if t = op then
      let r := takeRun op ts
      (r.1 + 1, r.2)
    else (0, t :: ts)

/-- The back-patch `cmds[close].operand = v` of src/parser.rs:123.  Writing
out of bounds leaves the list unchanged here; theorem C10 shows the parser
only ever patches in bounds (in Rust an out-of-bounds write would panic,
see `setOperandChecked`). -/
def setOperand : List Cmd → Nat → Nat → List Cmd
  | [], _, _ => []
  | c :: cs, 0, v => { c with operand := v } :: cs
  | c :: cs, n + 1, v => c :: setOperand cs n v

theorem takeRun_snd_length_le (op : Op) (ts : List Op) :
    (takeRun op ts).2.length ≤ ts.length := by
  induction ts with
  | nil => simp [takeRun]
  | cons t ts ih =>
    by_cases h : t = op
    · simp only [takeRun, if_pos h]
      exact Nat.le_succ_of_le ih
    · simp [takeRun, if_neg h]

/-- The `while let Some(operator) = curr` loop of `Parser::parse_all`
(src/parser.rs:83-132).  State: remaining tokens, the `cmds` vector built so
far, and the `jmp_stack` of pending `[` positions (head = most recently
pushed, mirroring `Vec::push`/`Vec::pop`).  On token exhaustion the final
`jmp_stack.pop()` check of lines 128-130 runs. -/
def parseGo : List Op → List Cmd → List Nat → Except ParseError (List Cmd)
  | [], cmds, jmpStack =>
    match jmpStack with
    | close :: _ => .error (.unclosedBracket close)
    | [] => .ok cmds
  | t :: ts, cmds, jmpStack =>
    match t with
    | .add | .sub | .left | .right | .out | .inp =>
      parseGo (takeRun t ts).2
        (cmds ++ [{ operator := t, operand := (takeRun t ts).1 + 1 }]) jmpStack
    | .jmpZero =>
      parseGo ts (cmds ++ [{ operator := .jmpZero, operand := 0 }])
        (cmds.length :: jmpStack)
    | .jmpNonZero =>
      match jmpStack with
      | [] => .error (.unopenedBracket cmds.length)
      | close :: rest =>
        parseGo ts
          (setOperand (cmds ++ [{ operator := .jmpNonZero, operand := close + 1 }])
            close (cmds.length + 1))
          rest
termination_by ts _ _ => ts.length
decreasing_by
  · exact Nat.lt_succ_of_le (takeRun_snd_length_le t ts)
  · exact Nat.lt_succ_self _
  · exact Nat.lt_succ_self _

/-- `Parser::parse_all` (src/parser.rs:83-133), starting from an empty
instruction vector and an empty jump stack. -/
def parseAll (tokens : List Op) : Except ParseError (List Cmd) :=
  parseGo tokens [] []

/-- `const MEM_SIZE: usize = 30_000` of src/interpreter.rs:5. -/
def MEM_SIZE : Nat := 30000

/-- Runtime errors of `Interpreter::run_all`.  The only one is the
`panic!("Runtime error: tried to output invalid ascii")` of
src/interpreter.rs:33, which the spec names `InvalidOutputByte`. -/
inductive RuntimeError where
  | invalidOutputByte
deriving DecidableEq, Repr

/-- Interpreter state for `Interpreter::run_all` (src/interpreter.rs:15-70):
the tape `mem` (a total function; only indices below `MEM_SIZE` are ever
read or written, and cells hold values below 256), the memory pointer, the
instruction pointer, and the two I/O endpoints.  `input` models stdin as the
list of lines still unread, each line a list of character codes with the
trailing newline already stripped (matching the `buf.pop()` of
src/interpreter.rs:48); `output` is the list of bytes printed so far. -/
structure St where
  mem : Nat → Nat
  memPtr : Nat
  instrPtr : Nat
  input : List (List Nat)
  output : List Nat

/-- Point update of the tape: `self.mem[mem_ptr] = v`. -/
def writeCell (m : Nat → Nat) (p v : Nat) : Nat → Nat :=
  fun i => if i = p then v else m i

/-- One iteration of the `while instr_ptr < cmds.len()` loop of
`Interpreter::run_all` (src/interpreter.rs:19-69).  `none` means the loop
guard failed (execution has terminated); `some (.error e)` is a runtime
panic; `some (.ok s)` is the next state.  Cell arithmetic mirrors
`wrapping_add/wrapping_sub(cmd.operand as u8)` (the operand is truncated to
8 bits first); `Op::Left` mirrors the `i128` `rem_euclid` (Euclidean
remainder, i.e. `Int.emod`); `Op::Out` mirrors `u8::is_ascii` (value at most
127); `Op::In` mirrors the `read_line` call: it takes the next input line
regardless of the operand, stores the line's last character code truncated
to a byte, and stores 0 at end of input or on an empty line. -/
def step (cmds : List Cmd) (s : St) : Option (Except RuntimeError St) :=
  match cmds[s.instrPtr]? with
  | none => none
  | some cmd =>
    some <|
      match cmd.operator with
      | .add =>
        .ok { s with
          mem := writeCell s.mem s.memPtr
            ((s.mem s.memPtr + cmd.operand % 256) % 256)
          instrPtr := s.instrPtr + 1 }
      | .sub =>
        .ok { s with
          mem := writeCell s.mem s.memPtr
            ((s.mem s.memPtr + (256 - cmd.operand % 256)) % 256)
          instrPtr := s.instrPtr + 1 }
      | .left =>
        .ok { s with
          memPtr := (((s.memPtr : Int) - (cmd.operand : Int)) % (MEM_SIZE : Int)).toNat
          instrPtr := s.instrPtr + 1 }
      | .right =>
        .ok { s with
          memPtr := (s.memPtr + cmd.operand) % MEM_SIZE
          instrPtr := s.instrPtr + 1 }
      | .out =>
        if s.mem s.memPtr ≤ 127 then
          .ok { s with
            output := s.output ++ List.replicate cmd.operand (s.mem s.memPtr)
            instrPtr := s.instrPtr + 1 }
        else
          .error .invalidOutputByte
      | .inp =>
        match s.input with
        | [] =>
          .ok { s with
            mem := writeCell s.mem s.memPtr 0
            instrPtr := s.instrPtr + 1 }
        | line :: rest =>
          .ok { s with
            mem := writeCell s.mem s.memPtr ((line.getLast?.getD 0) % 256)
            input := rest
            instrPtr := s.instrPtr + 1 }
      | .jmpZero =>
        .ok { s with
          instrPtr := if s.mem s.memPtr = 0 then cmd.operand else s.instrPtr + 1 }
      | .jmpNonZero =>
        .ok { s with
          instrPtr := if s.mem s.memPtr ≠ 0 then cmd.operand else s.instrPtr + 1 }

/-- Possible results of running the interpreter loop with bounded fuel. -/
inductive Outcome where
  | halted (s : St)
  | err (e : RuntimeError)
  | fuelOut (s : St)

/-- The interpreter loop of `Interpreter::run_all`, iterated with explicit
fuel (the Rust loop may diverge; every claim about it is stated with enough
fuel). -/
def run (cmds : List Cmd) : Nat → St → Outcome
  | 0, s => .fuelOut s
  | fuel + 1, s =>
    match step cmds s with
    | none => .halted s
    | some (.error e) => .err e
    | some (.ok s1) => run cmds fuel s1

/-- The initial state of `Interpreter::run_all`: zeroed tape
(`mem: [0; MEM_SIZE]`, src/interpreter.rs:12), both cursors at 0
(src/interpreter.rs:16-17), nothing written yet. -/
def initSt (input : List (List Nat)) : St :=
  { mem := fun _ => 0, memPtr := 0, instrPtr := 0, input := input, output := [] }

/-- Result of parsing a source and, on success, running it. -/
inductive ProgResult where
  | parseFail (e : ParseError)
  | runOutcome (o : Outcome)

/-- Modelled from the spec: src/ contains no caller that feeds
`Parser::parse_all` into `Interpreter::run_all` (src/main.rs uses its own
separate interpreter), so the composition is taken from the spec sentence
"caller reads source bytes → Parser emits instruction list or a structural
error → Interpreter consumes the list and runs to termination": the
instruction list is executed only when parsing succeeded. -/
def runProgram (tokens : List Op) (input : List (List Nat)) (fuel : Nat) :
    ProgResult :=
  match parseAll tokens with
  | .error e => .parseFail e
  | .ok cmds => .runOutcome (run cmds fuel (initSt input))

/-- The cell under the memory pointer of a halted outcome. -/
def outcomeCell : Outcome → Option Nat
  | .halted s => some (s.mem s.memPtr)
  | _ => none

/-- The memory pointer of a halted outcome. -/
def outcomeMemPtr : Outcome → Option Nat
  | .halted s => some s.memPtr
  | _ => none

/-- The unread input of a halted outcome. -/
def outcomeInput : Outcome → Option (List (List Nat))
  | .halted s => some s.input
  | _ => none

/-- The bytes written by a halted outcome. -/
def outcomeOutput : Outcome → Option (List Nat)
  | .halted s => some s.output
  | _ => none

/-- Well-formed jump pairs: every `jmpZero` points just past a `jmpNonZero`
that points back to just past it, and vice versa; the `jmpZero` operand is a
valid instruction-pointer position (at most the list length, the length
itself being the normal-termination position), and the `jmpNonZero` operand
is a strictly in-range earlier index plus one. -/
def WF (cmds : List Cmd) : Prop :=
  ∀ i, (h : i < cmds.length) →
    (cmds[i].operator = .jmpZero →
      i + 1 < cmds[i].operand ∧ cmds[i].operand ≤ cmds.length ∧
      cmds[cmds[i].operand - 1]? = some ⟨.jmpNonZero, i + 1⟩) ∧
    (cmds[i].operator = .jmpNonZero →
      0 < cmds[i].operand ∧ cmds[i].operand < cmds.length ∧
      cmds[i].operand - 1 < i ∧
      cmds[cmds[i].operand - 1]? = some ⟨.jmpZero, i + 1⟩)

/-- Invariant of the parse loop relating the instructions built so far to
the pending-bracket stack: the stack is strictly decreasing (newest on
top), every stack entry is an in-range unpatched `jmpZero` placeholder, and
every bracket instruction not on the stack is already correctly paired. -/
def ParseInv (cmds : List Cmd) (stk : List Nat) : Prop :=
  List.Pairwise (fun a b => b < a) stk ∧
  (∀ e ∈ stk, e < cmds.length ∧ cmds[e]? = some ⟨.jmpZero, 0⟩) ∧
  (∀ i c, cmds[i]? = some c →
    (c.operator = .jmpZero →
      i ∈ stk ∨
        (i + 1 < c.operand ∧ c.operand ≤ cmds.length ∧
          cmds[c.operand - 1]? = some ⟨.jmpNonZero, i + 1⟩)) ∧
    (c.operator = .jmpNonZero →
      0 < c.operand ∧ c.operand - 1 < i ∧
      cmds[c.operand - 1]? = some ⟨.jmpZero, i + 1⟩))

/-- Bracket scan over the token stream: the instruction positions of the
unmatched `[` tokens, newest first (`none` when some `]` has no matching
open).  `stk` is the scan stack and `n` the number of instructions the
collapsing pass has emitted before the remaining tokens; a whole run of
identical simple operators counts as one instruction. -/
def pendingOpens : List Op → List Nat → Nat → Option (List Nat)
  | [], stk, _ => some stk
  | t :: ts, stk, n =>
    match t with
    | .add | .sub | .left | .right | .out | .inp =>
      pendingOpens (takeRun t ts).2 stk (n + 1)
    | .jmpZero => pendingOpens ts (n :: stk) (n + 1)
    | .jmpNonZero =>
      match stk with
      | [] => none
      | _ :: rest => pendingOpens ts rest (n + 1)
termination_by ts _ _ => ts.length
decreasing_by
  · exact Nat.lt_succ_of_le (takeRun_snd_length_le t ts)
  · exact Nat.lt_succ_self _
  · exact Nat.lt_succ_self _

/-- Depth scan over the token stream: the number of instructions emitted
before the first `]` that has no matching earlier unmatched `[` (`none`
when every `]` is matched).  `d` is the current bracket depth and `n` the
instruction count, as in `pendingOpens`. -/
def firstUnopened : List Op → Nat → Nat → Option Nat
  | [], _, _ => none
  | t :: ts, d, n =>
    match t with
    | .add | .sub | .left | .right | .out | .inp =>
      firstUnopened (takeRun t ts).2 d (n + 1)
    | .jmpZero => firstUnopened ts (d + 1) (n + 1)
    | .jmpNonZero =>
      if d = 0 then some n else firstUnopened ts (d - 1) (n + 1)
termination_by ts _ _ => ts.length
decreasing_by
  · exact Nat.lt_succ_of_le (takeRun_snd_length_le t ts)
  · exact Nat.lt_succ_self _
  · exact Nat.lt_succ_self _

/-- The back-patch of src/parser.rs:123 with the Rust panic made explicit:
`none` when `cmds[close]` would be an out-of-bounds index (a panic in
Rust), otherwise the patched list. -/
def setOperandChecked : List Cmd → Nat → Nat → Option (List Cmd)
  | [], _, _ => none
  | c :: cs, 0, v => some ({ c with operand := v } :: cs)
  | c :: cs, n + 1, v => (setOperandChecked cs n v).map (c :: ·)

/-- `parseGo` with the potential out-of-bounds panic of the back-patch made
explicit: identical to `parseGo` except that the patch uses
`setOperandChecked`, and `none` signals a panic. -/
def parseGoChecked :
    List Op → List Cmd → List Nat → Option (Except ParseError (List Cmd))
  | [], cmds, jmpStack =>
    match jmpStack with
    | close :: _ => some (.error (.unclosedBracket close))
    | [] => some (.ok cmds)
  | t :: ts, cmds, jmpStack =>
    match t with
    | .add | .sub | .left | .right | .out | .inp =>
      parseGoChecked (takeRun t ts).2
        (cmds ++ [{ operator := t, operand := (takeRun t ts).1 + 1 }]) jmpStack
    | .jmpZero =>
      parseGoChecked ts (cmds ++ [{ operator := .jmpZero, operand := 0 }])
        (cmds.length :: jmpStack)
    | .jmpNonZero =>
      match jmpStack with
      | [] => some (.error (.unopenedBracket cmds.length))
      | close :: rest =>
        match setOperandChecked
            (cmds ++ [{ operator := .jmpNonZero, operand := close + 1 }])
            close (cmds.length + 1) with
        | none => none
        | some patched => parseGoChecked ts patched rest
termination_by ts _ _ => ts.length
decreasing_by
  · exact Nat.lt_succ_of_le (takeRun_snd_length_le t ts)
  · exact Nat.lt_succ_self _
  · exact Nat.lt_succ_self _

/-- The six simple (non-bracket) operators. -/
def simpleOps : List Op := [.add, .sub, .left, .right, .out, .inp]

/-- The simple operators for which run-length collapsing preserves
semantics (all of them except `inp`, whose operand the interpreter
ignores). -/
def collapsibleOps : List Op := [.add, .sub, .left, .right, .out]

/-- The effect of one simple instruction with operand 1, as `step` performs
it (instruction pointer advanced by one; identity on the bracket operators,
where it is never used). -/
def unitStep (op : Op) (s : St) : St :=
  match op with
  | .add =>
    { s with
      mem := writeCell s.mem s.memPtr ((s.mem s.memPtr + 1) % 256)
      instrPtr := s.instrPtr + 1 }
  | .sub =>
    { s with
      mem := writeCell s.mem s.memPtr ((s.mem s.memPtr + 255) % 256)
      instrPtr := s.instrPtr + 1 }
  | .left =>
    { s with
      memPtr := (((s.memPtr : Int) - 1) % (MEM_SIZE : Int)).toNat
      instrPtr := s.instrPtr + 1 }
  | .right =>
    { s with
      memPtr := (s.memPtr + 1) % MEM_SIZE
      instrPtr := s.instrPtr + 1 }
  | .out =>
    { s with
      output := s.output ++ [s.mem s.memPtr]
      instrPtr := s.instrPtr + 1 }
  | _ => s

/-- Equality of interpreter states up to the instruction pointer: same
tape, same memory pointer, same unread input, same written output. -/
def coreEq (a b : St) : Prop :=
  a.mem = b.mem ∧ a.memPtr = b.memPtr ∧ a.input = b.input ∧ a.output = b.output

theorem length_concat {α : Type} (l : List α) (x : α) :
    (l ++ [x]).length = l.length + 1 := by simp

theorem lt_length_of_getElem?_some {α : Type} {l : List α} {i : Nat} {a : α}
    (h : l[i]? = some a) : i < l.length := by
  by_contra hc
  rw [List.getElem?_eq_none (by omega)] at h
  exact Option.noConfusion h

theorem getElem?_append_some {α : Type} {l : List α} {x a : α} {i : Nat}
    (h : l[i]? = some a) : (l ++ [x])[i]? = some a := by
  rw [List.getElem?_append, if_pos (lt_length_of_getElem?_some h)]
  exact h

theorem getElem?_concat_cases {α : Type} {l : List α} {x a : α} {i : Nat}
    (h : (l ++ [x])[i]? = some a) : l[i]? = some a ∨ (i = l.length ∧ a = x) := by
  rw [List.getElem?_append] at h
  by_cases hi : i < l.length
  · rw [if_pos hi] at h
    exact .inl h
  · rw [if_neg hi] at h
    by_cases he : i = l.length
    · subst he
      simp at h
      exact .inr ⟨rfl, h.symm⟩
    · exfalso
      rw [List.getElem?_eq_none (by simp; omega)] at h
      exact Option.noConfusion h

theorem setOperand_length (l : List Cmd) (n v : Nat) :
    (setOperand l n v).length = l.length := by
  induction l generalizing n with
  | nil => rfl
  | cons c cs ih =>
    cases n with
    | zero => rfl
    | succ m => simp [setOperand, ih]

theorem setOperand_getElem?_ne (l : List Cmd) (n v i : Nat) (h : i ≠ n) :
    (setOperand l n v)[i]? = l[i]? := by
  induction l generalizing n i with
  | nil => rfl
  | cons c cs ih =>
    cases n with
    | zero =>
      cases i with
      | zero => exact absurd rfl h
      | succ j => simp [setOperand]
    | succ m =>
      cases i with
      | zero => simp [setOperand]
      | succ j => simpa [setOperand] using ih m j (by omega)

theorem setOperand_getElem?_eq (l : List Cmd) (n v : Nat) (c : Cmd)
    (h : l[n]? = some c) :
    (setOperand l n v)[n]? = some { c with operand := v } := by
  induction l generalizing n with
  | nil => simp at h
  | cons d ds ih =>
    cases n with
    | zero =>
      simp only [List.getElem?_cons_zero, Option.some.injEq] at h
      subst h
      simp [setOperand]
    | succ m =>
      simp only [List.getElem?_cons_succ] at h
      simpa [setOperand] using ih m h

theorem setOperandChecked_eq_some (l : List Cmd) (n v : Nat)
    (h : n < l.length) :
    setOperandChecked l n v = some (setOperand l n v) := by
  induction l generalizing n with
  | nil => simp at h
  | cons c cs ih =>
    cases n with
    | zero => rfl
    | succ m =>
      have hm : m < cs.length := by simpa using h
      simp [setOperandChecked, setOperand, ih m hm]

theorem takeRun_replicate (op : Op) (m : Nat) (rest : List Op)
    (h : rest.head? ≠ some op) :
    takeRun op (List.replicate m op ++ rest) = (m, rest) := by
  induction m with
  | zero =>
    simp only [List.replicate, List.nil_append]
    cases rest with
    | nil => rfl
    | cons r rs =>
      have hr : r ≠ op := by simpa using h
      simp [takeRun, hr]
  | succ k ih => simp [List.replicate_succ, takeRun, ih]

theorem parseInv_empty : ParseInv [] [] := by
  refine ⟨List.Pairwise.nil, ?_, ?_⟩
  · intro e he
    exact absurd he (List.not_mem_nil _)
  · intro i c hc
    simp at hc

theorem parseInv_append_simple (cmds : List Cmd) (stk : List Nat) (op : Op)
    (k : Nat) (h1 : op ≠ .jmpZero) (h2 : op ≠ .jmpNonZero)
    (hinv : ParseInv cmds stk) :
    ParseInv (cmds ++ [{ operator := op, operand := k }]) stk := by
  obtain ⟨p1, p2, p3⟩ := hinv
  refine ⟨p1, ?_, ?_⟩
  · intro e he
    obtain ⟨hel, helook⟩ := p2 e he
    exact ⟨by rw [length_concat]; omega, getElem?_append_some helook⟩
  · intro i c hc
    rcases getElem?_concat_cases hc with hold | ⟨hi, hcx⟩
    · obtain ⟨q1, q2⟩ := p3 i c hold
      constructor
      · intro hop
        rcases q1 hop with hmem | ⟨r1, r2, r3⟩
        · exact .inl hmem
        · exact .inr ⟨r1, by rw [length_concat]; omega, getElem?_append_some r3⟩
      · intro hop
        obtain ⟨r1, r2, r3⟩ := q2 hop
        exact ⟨r1, r2, getElem?_append_some r3⟩
    · subst hcx
      constructor
      · intro hop
        exact absurd hop h1
      · intro hop
        exact absurd hop h2

theorem parseInv_push_open (cmds : List Cmd) (stk : List Nat)
    (hinv : ParseInv cmds stk) :
    ParseInv (cmds ++ [{ operator := Op.jmpZero, operand := 0 }])
      (cmds.length :: stk) := by
  obtain ⟨p1, p2, p3⟩ := hinv
  refine ⟨?_, ?_, ?_⟩
  · exact List.pairwise_cons.mpr ⟨fun b hb => (p2 b hb).1, p1⟩
  · intro e he
    rcases List.mem_cons.mp he with rfl | he2
    · exact ⟨by rw [length_concat]; omega, List.getElem?_concat_length _ _⟩
    · obtain ⟨hel, helook⟩ := p2 e he2
      exact ⟨by rw [length_concat]; omega, getElem?_append_some helook⟩
  · intro i c hc
    rcases getElem?_concat_cases hc with hold | ⟨hi, hcx⟩
    · obtain ⟨q1, q2⟩ := p3 i c hold
      constructor
      · intro hop
        rcases q1 hop with hmem | ⟨r1, r2, r3⟩
        · exact .inl (List.mem_cons_of_mem _ hmem)
        · exact .inr ⟨r1, by rw [length_concat]; omega, getElem?_append_some r3⟩
      · intro hop
        obtain ⟨r1, r2, r3⟩ := q2 hop
        exact ⟨r1, r2, getElem?_append_some r3⟩
    · subst hcx
      constructor
      · intro _
        subst hi
        exact .inl (List.mem_cons_self _ _)
      · intro hop
        exact Op.noConfusion hop

theorem parseInv_close (cmds : List Cmd) (close : Nat) (rest : List Nat)
    (hinv : ParseInv cmds (close :: rest)) :
    ParseInv
      (setOperand (cmds ++ [{ operator := Op.jmpNonZero, operand := close + 1 }])
        close (cmds.length + 1)) rest := by
  obtain ⟨p1, p2, p3⟩ := hinv
  obtain ⟨hcl, hclook⟩ := p2 close (List.mem_cons_self _ _)
  have hrest_lt : ∀ b ∈ rest, b < close := (List.pairwise_cons.mp p1).1
  have hrest_pw : List.Pairwise (fun a b => b < a) rest :=
    (List.pairwise_cons.mp p1).2
  set L := cmds.length with hL
  set newCmds :=
    setOperand (cmds ++ [{ operator := Op.jmpNonZero, operand := close + 1 }])
      close (L + 1) with hnew
  have hlen : newCmds.length = L + 1 := by
    rw [hnew, setOperand_length, length_concat]
  have hlookL : newCmds[L]? = some ⟨.jmpNonZero, close + 1⟩ := by
    rw [hnew, setOperand_getElem?_ne _ _ _ _ (by omega)]
    exact List.getElem?_concat_length _ _
  have hlookC : newCmds[close]? = some ⟨.jmpZero, L + 1⟩ := by
    rw [hnew]
    have h9 := setOperand_getElem?_eq
      (cmds ++ [{ operator := Op.jmpNonZero, operand := close + 1 }]) close
      (L + 1) ⟨.jmpZero, 0⟩ (getElem?_append_some hclook)
    simpa using h9
  have hlookOld : ∀ i, i ≠ close → i ≠ L → ∀ c, newCmds[i]? = some c →
      cmds[i]? = some c := by
    intro i hic hiL c hc
    rw [hnew, setOperand_getElem?_ne _ _ _ _ hic] at hc
    rcases getElem?_concat_cases hc with h | ⟨h9, _⟩
    · exact h
    · exact absurd h9 hiL
  have hlookOldF : ∀ i, i ≠ close → ∀ c, cmds[i]? = some c →
      newCmds[i]? = some c := by
    intro i hic c hc
    rw [hnew, setOperand_getElem?_ne _ _ _ _ hic]
    exact getElem?_append_some hc
  refine ⟨hrest_pw, ?_, ?_⟩
  · intro e he
    have helt : e < close := hrest_lt e he
    obtain ⟨hel, helook⟩ := p2 e (List.mem_cons_of_mem _ he)
    exact ⟨by omega, hlookOldF e (by omega) _ helook⟩
  · intro i c hc
    by_cases hiC : i = close
    · subst hiC
      rw [hlookC] at hc
      rw [← Option.some.inj hc]
      constructor
      · intro _
        refine .inr ⟨by simp; omega, by simp [hlen], ?_⟩
        simpa using hlookL
      · intro hop
        exact Op.noConfusion hop
    · by_cases hiL : i = L
      · subst hiL
        rw [hlookL] at hc
        rw [← Option.some.inj hc]
        constructor
        · intro hop
          exact Op.noConfusion hop
        · intro _
          refine ⟨by simp, by simpa using hcl, by simpa using hlookC⟩
      · have hold := hlookOld i hiC hiL c hc
        obtain ⟨q1, q2⟩ := p3 i c hold
        constructor
        · intro hop
          rcases q1 hop with hmem | ⟨r1, r2, r3⟩
          · rcases List.mem_cons.mp hmem with rfl | hm
            · exact absurd rfl hiC
            · exact .inl hm
          · refine .inr ⟨r1, by rw [hlen]; omega, ?_⟩
            have hne : c.operand - 1 ≠ close := by
              intro he
              rw [he, hclook] at r3
              simp at r3
            exact hlookOldF _ hne _ r3
        · intro hop
          obtain ⟨r1, r2, r3⟩ := q2 hop
          refine ⟨r1, r2, ?_⟩
          have hne : c.operand - 1 ≠ close := by
            intro he
            rw [he, hclook] at r3
            simp at r3
          exact hlookOldF _ hne _ r3

theorem wf_of_parseGo_nil {cmds : List Cmd} {stk : List Nat} {out : List Cmd}
    (hinv : ParseInv cmds stk) (hok : parseGo [] cmds stk = .ok out) :
    WF out := by
  cases stk with
  | cons c r => simp [parseGo] at hok
  | nil =>
    have hout : cmds = out := by simpa [parseGo] using hok
    subst hout
    intro i hi
    obtain ⟨-, -, h3⟩ := hinv
    obtain ⟨h1, h2⟩ := h3 i cmds[i] (List.getElem?_eq_getElem hi)
    constructor
    · intro hop
      rcases h1 hop with hmem | htriple
      · exact absurd hmem (List.not_mem_nil _)
      · exact htriple
    · intro hop
      obtain ⟨o1, o2, o3⟩ := h2 hop
      exact ⟨o1, by omega, o2, o3⟩

theorem parseGo_ok_wf (fuel : Nat) :
    ∀ (ts : List Op) (cmds : List Cmd) (stk : List Nat) (out : List Cmd),
      ts.length ≤ fuel → ParseInv cmds stk → parseGo ts cmds stk = .ok out →
      WF out := by
  induction fuel with
  | zero =>
    intro ts cmds stk out hlen hinv hok
    cases ts with
    | nil => exact wf_of_parseGo_nil hinv hok
    | cons t ts2 => simp at hlen
  | succ n ih =>
    intro ts cmds stk out hlen hinv hok
    cases ts with
    | nil => exact wf_of_parseGo_nil hinv hok
    | cons t ts2 =>
      have hlen2 : ts2.length ≤ n := by simpa using hlen
      cases t with
      | jmpZero =>
        simp only [parseGo] at hok
        exact ih _ _ _ _ hlen2 (parseInv_push_open _ _ hinv) hok
      | jmpNonZero =>
        cases stk with
        | nil => simp [parseGo] at hok
        | cons close rest =>
          simp only [parseGo] at hok
          exact ih _ _ _ _ hlen2 (parseInv_close _ _ _ hinv) hok
      | add =>
        simp only [parseGo] at hok
        exact ih _ _ _ _ (le_trans (takeRun_snd_length_le _ _) hlen2)
          (parseInv_append_simple _ _ _ _ (by decide) (by decide) hinv) hok
      | sub =>
        simp only [parseGo] at hok
        exact ih _ _ _ _ (le_trans (takeRun_snd_length_le _ _) hlen2)
          (parseInv_append_simple _ _ _ _ (by decide) (by decide) hinv) hok
      | left =>
        simp only [parseGo] at hok
        exact ih _ _ _ _ (le_trans (takeRun_snd_length_le _ _) hlen2)
          (parseInv_append_simple _ _ _ _ (by decide) (by decide) hinv) hok
      | right =>
        simp only [parseGo] at hok
        exact ih _ _ _ _ (le_trans (takeRun_snd_length_le _ _) hlen2)
          (parseInv_append_simple _ _ _ _ (by decide) (by decide) hinv) hok
      | out =>
        simp only [parseGo] at hok
        exact ih _ _ _ _ (le_trans (takeRun_snd_length_le _ _) hlen2)
          (parseInv_append_simple _ _ _ _ (by decide) (by decide) hinv) hok
      | inp =>
        simp only [parseGo] at hok
        exact ih _ _ _ _ (le_trans (takeRun_snd_length_le _ _) hlen2)
          (parseInv_append_simple _ _ _ _ (by decide) (by decide) hinv) hok

theorem parseGoChecked_eq (fuel : Nat) :
    ∀ (ts : List Op) (cmds : List Cmd) (stk : List Nat),
      ts.length ≤ fuel → (∀ e ∈ stk, e < cmds.length) →
      parseGoChecked ts cmds stk = some (parseGo ts cmds stk) := by
  induction fuel with
  | zero =>
    intro ts cmds stk hlen hstk
    cases ts with
    | nil => cases stk <;> simp [parseGoChecked, parseGo]
    | cons t ts2 => simp at hlen
  | succ n ih =>
    intro ts cmds stk hlen hstk
    cases ts with
    | nil => cases stk <;> simp [parseGoChecked, parseGo]
    | cons t ts2 =>
      have hlen2 : ts2.length ≤ n := by simpa using hlen
      have hgrow : ∀ (x : Cmd), ∀ e ∈ stk, e < (cmds ++ [x]).length := by
        intro x e he
        rw [length_concat]
        exact Nat.lt_succ_of_lt (hstk e he)
      cases t with
      | jmpZero =>
        simp only [parseGoChecked, parseGo]
        refine ih ts2 _ _ hlen2 ?_
        intro e he
        rcases List.mem_cons.mp he with rfl | he2
        · rw [length_concat]
          omega
        · exact hgrow _ e he2
      | jmpNonZero =>
        cases stk with
        | nil => simp [parseGoChecked, parseGo]
        | cons close rest =>
          have hclose : close < cmds.length :=
            hstk close (List.mem_cons_self _ _)
          have hset := setOperandChecked_eq_some
            (cmds ++ [{ operator := Op.jmpNonZero, operand := close + 1 }])
            close (cmds.length + 1) (by rw [length_concat]; omega)
          simp only [parseGoChecked, parseGo, hset]
          refine ih ts2 _ _ hlen2 ?_
          intro e he
          rw [setOperand_length, length_concat]
          exact Nat.lt_succ_of_lt (hstk e (List.mem_cons_of_mem _ he))
      | add =>
        simp only [parseGoChecked, parseGo]
        exact ih _ _ _ (le_trans (takeRun_snd_length_le _ _) hlen2) (hgrow _)
      | sub =>
        simp only [parseGoChecked, parseGo]
        exact ih _ _ _ (le_trans (takeRun_snd_length_le _ _) hlen2) (hgrow _)
      | left =>
        simp only [parseGoChecked, parseGo]
        exact ih _ _ _ (le_trans (takeRun_snd_length_le _ _) hlen2) (hgrow _)
      | right =>
        simp only [parseGoChecked, parseGo]
        exact ih _ _ _ (le_trans (takeRun_snd_length_le _ _) hlen2) (hgrow _)
      | out =>
        simp only [parseGoChecked, parseGo]
        exact ih _ _ _ (le_trans (takeRun_snd_length_le _ _) hlen2) (hgrow _)
      | inp =>
        simp only [parseGoChecked, parseGo]
        exact ih _ _ _ (le_trans (takeRun_snd_length_le _ _) hlen2) (hgrow _)

theorem pendingOpens_unclosed (fuel : Nat) :
    ∀ (ts : List Op) (cmds : List Cmd) (stk : List Nat) (i : Nat)
      (r : List Nat), ts.length ≤ fuel →
      pendingOpens ts stk cmds.length = some (i :: r) →
      parseGo ts cmds stk = .error (.unclosedBracket i) := by
  induction fuel with
  | zero =>
    intro ts cmds stk i r hlen hpo
    cases ts with
    | nil =>
      have hstk : stk = i :: r := by simpa [pendingOpens] using hpo
      subst hstk
      simp [parseGo]
    | cons t ts2 => simp at hlen
  | succ n ih =>
    intro ts cmds stk i r hlen hpo
    cases ts with
    | nil =>
      have hstk : stk = i :: r := by simpa [pendingOpens] using hpo
      subst hstk
      simp [parseGo]
    | cons t ts2 =>
      have hlen2 : ts2.length ≤ n := by simpa using hlen
      cases t with
      | jmpZero =>
        simp only [pendingOpens] at hpo
        simp only [parseGo]
        have hlc : (cmds ++ [({ operator := Op.jmpZero, operand := 0 } : Cmd)]).length =
            cmds.length + 1 := length_concat _ _
        refine ih ts2 _ _ i r hlen2 ?_
        rw [hlc]
        exact hpo
      | jmpNonZero =>
        cases stk with
        | nil => simp [pendingOpens] at hpo
        | cons close rest =>
          simp only [pendingOpens] at hpo
          simp only [parseGo]
          have hlc : (setOperand
              (cmds ++ [{ operator := Op.jmpNonZero, operand := close + 1 }])
              close (cmds.length + 1)).length = cmds.length + 1 := by
            rw [setOperand_length, length_concat]
          refine ih ts2 _ _ i r hlen2 ?_
          rw [hlc]
          exact hpo
      | add =>
        simp only [pendingOpens] at hpo
        simp only [parseGo]
        refine ih _ _ _ i r (le_trans (takeRun_snd_length_le _ _) hlen2) ?_
        rw [length_concat]
        exact hpo
      | sub =>
        simp only [pendingOpens] at hpo
        simp only [parseGo]
        refine ih _ _ _ i r (le_trans (takeRun_snd_length_le _ _) hlen2) ?_
        rw [length_concat]
        exact hpo
      | left =>
        simp only [pendingOpens] at hpo
        simp only [parseGo]
        refine ih _ _ _ i r (le_trans (takeRun_snd_length_le _ _) hlen2) ?_
        rw [length_concat]
        exact hpo
      | right =>
        simp only [pendingOpens] at hpo
        simp only [parseGo]
        refine ih _ _ _ i r (le_trans (takeRun_snd_length_le _ _) hlen2) ?_
        rw [length_concat]
        exact hpo
      | out =>
        simp only [pendingOpens] at hpo
        simp only [parseGo]
        refine ih _ _ _ i r (le_trans (takeRun_snd_length_le _ _) hlen2) ?_
        rw [length_concat]
        exact hpo
      | inp =>
        simp only [pendingOpens] at hpo
        simp only [parseGo]
        refine ih _ _ _ i r (le_trans (takeRun_snd_length_le _ _) hlen2) ?_
        rw [length_concat]
        exact hpo

theorem firstUnopened_unopened (fuel : Nat) :
    ∀ (ts : List Op) (cmds : List Cmd) (stk : List Nat) (m : Nat),
      ts.length ≤ fuel → firstUnopened ts stk.length cmds.length = some m →
      parseGo ts cmds stk = .error (.unopenedBracket m) := by
  induction fuel with
  | zero =>
    intro ts cmds stk m hlen hfu
    cases ts with
    | nil => simp [firstUnopened] at hfu
    | cons t ts2 => simp at hlen
  | succ n ih =>
    intro ts cmds stk m hlen hfu
    cases ts with
    | nil => simp [firstUnopened] at hfu
    | cons t ts2 =>
      have hlen2 : ts2.length ≤ n := by simpa using hlen
      cases t with
      | jmpZero =>
        simp only [firstUnopened] at hfu
        simp only [parseGo]
        refine ih ts2 _ _ m hlen2 ?_
        rw [length_concat]
        simpa using hfu
      | jmpNonZero =>
        cases stk with
        | nil =>
          have hm : cmds.length = m := by simpa [firstUnopened] using hfu
          subst hm
          simp [parseGo]
        | cons close rest =>
          have hd : (close :: rest).length ≠ 0 := by simp
          simp only [firstUnopened, if_neg hd] at hfu
          simp only [parseGo]
          have hlc : (setOperand
              (cmds ++ [{ operator := Op.jmpNonZero, operand := close + 1 }])
              close (cmds.length + 1)).length = cmds.length + 1 := by
            rw [setOperand_length, length_concat]
          refine ih ts2 _ _ m hlen2 ?_
          rw [hlc]
          simpa using hfu
      | add =>
        simp only [firstUnopened] at hfu
        simp only [parseGo]
        refine ih _ _ _ m (le_trans (takeRun_snd_length_le _ _) hlen2) ?_
        rw [length_concat]
        exact hfu
      | sub =>
        simp only [firstUnopened] at hfu
        simp only [parseGo]
        refine ih _ _ _ m (le_trans (takeRun_snd_length_le _ _) hlen2) ?_
        rw [length_concat]
        exact hfu
      | left =>
        simp only [firstUnopened] at hfu
        simp only [parseGo]
        refine ih _ _ _ m (le_trans (takeRun_snd_length_le _ _) hlen2) ?_
        rw [length_concat]
        exact hfu
      | right =>
        simp only [firstUnopened] at hfu
        simp only [parseGo]
        refine ih _ _ _ m (le_trans (takeRun_snd_length_le _ _) hlen2) ?_
        rw [length_concat]
        exact hfu
      | out =>
        simp only [firstUnopened] at hfu
        simp only [parseGo]
        refine ih _ _ _ m (le_trans (takeRun_snd_length_le _ _) hlen2) ?_
        rw [length_concat]
        exact hfu
      | inp =>
        simp only [firstUnopened] at hfu
        simp only [parseGo]
        refine ih _ _ _ m (le_trans (takeRun_snd_length_le _ _) hlen2) ?_
        rw [length_concat]
        exact hfu

theorem St.ext {a b : St} (h1 : a.mem = b.mem) (h2 : a.memPtr = b.memPtr)
    (h3 : a.instrPtr = b.instrPtr) (h4 : a.input = b.input)
    (h5 : a.output = b.output) : a = b := by
  cases a
  cases b
  simp_all

theorem writeCell_read (m : Nat → Nat) (p v : Nat) : writeCell m p v p = v := by
  simp [writeCell]

theorem writeCell_writeCell (m : Nat → Nat) (p a b : Nat) :
    writeCell (writeCell m p a) p b = writeCell m p b := by
  funext i
  by_cases h : i = p <;> simp [writeCell, h]

theorem step_none_iff (cmds : List Cmd) (s : St) :
    step cmds s = none ↔ cmds.length ≤ s.instrPtr := by
  cases h : cmds[s.instrPtr]? with
  | none =>
    simp only [step, h]
    constructor
    · intro _
      by_contra hc
      rw [List.getElem?_eq_getElem (by omega)] at h
      exact Option.noConfusion h
    · intro _
      trivial
  | some cmd =>
    simp only [step, h]
    have hlt := lt_length_of_getElem?_some h
    constructor
    · intro hcon
      exact Option.noConfusion hcon
    · intro hle
      omega

theorem run_halted_length (cmds : List Cmd) (fuel : Nat) :
    ∀ s s1, run cmds fuel s = .halted s1 → cmds.length ≤ s1.instrPtr := by
  induction fuel with
  | zero =>
    intro s s1 h
    simp [run] at h
  | succ n ih =>
    intro s s1 h
    rw [run] at h
    cases hs : step cmds s with
    | none =>
      rw [hs] at h
      have hss : s = s1 := by
        simpa using h
      subst hss
      exact (step_none_iff cmds s).mp hs
    | some r =>
      rw [hs] at h
      cases r with
      | error e => simp at h
      | ok s2 => exact ih s2 s1 (by simpa using h)

/-- Claim C1: for every token sequence on which parsing succeeds, the
returned instruction list contains only well-formed jump pairs: each
`jmpZero` operand is the index just after its matching `jmpNonZero` (which
points back to the loop body start, the `jmpZero` index plus one), each
`jmpNonZero` operand is its matching `jmpZero` index plus one, and both
operands are valid instruction-pointer positions (`WF` additionally bounds
them by the list length; the `jmpZero` operand may equal the length, the
normal-termination position, exactly when its `]` is the final
instruction). -/
theorem parse_jump_pairs_wellformed (tokens : List Op) (cmds : List Cmd)
    (h : parseAll tokens = .ok cmds) : WF cmds :=
  parseGo_ok_wf tokens.length tokens [] [] cmds (le_refl _) parseInv_empty h

theorem parse_jump_pairs_wellformed_witness :
    parseAll [Op.jmpZero, Op.add, Op.jmpNonZero] =
      .ok [⟨.jmpZero, 3⟩, ⟨.add, 1⟩, ⟨.jmpNonZero, 1⟩] ∧
    WF [⟨.jmpZero, 3⟩, ⟨.add, 1⟩, ⟨.jmpNonZero, 1⟩] := by
  have hp : parseAll [Op.jmpZero, Op.add, Op.jmpNonZero] =
      .ok [⟨.jmpZero, 3⟩, ⟨.add, 1⟩, ⟨.jmpNonZero, 1⟩] := by
    simp [parseAll, parseGo, takeRun, setOperand]
  exact ⟨hp, parse_jump_pairs_wellformed _ _ hp⟩

/-- Claim C2: execution starts with the instruction pointer at 0; a step
exists exactly while the pointer is below the list length (so execution
terminates exactly when the pointer reaches the length, given it never
exceeds it); `jmpZero` sets the pointer to its operand exactly when the
current cell is 0 and `jmpNonZero` exactly when it is non-zero, falling
through to pointer+1 otherwise and leaving all other state unchanged;
every non-branch instruction advances the pointer by one; and a halted run
has consumed the whole list. -/
theorem exec_step_pointer_semantics :
    (∀ input, (initSt input).instrPtr = 0) ∧
    (∀ cmds s, step cmds s = none ↔ cmds.length ≤ s.instrPtr) ∧
    (∀ cmds s, s.instrPtr ≤ cmds.length →
      (step cmds s = none ↔ s.instrPtr = cmds.length)) ∧
    (∀ cmds s cmd, cmds[s.instrPtr]? = some cmd →
      (cmd.operator = .jmpZero →
        step cmds s = some (.ok { s with
          instrPtr := if s.mem s.memPtr = 0 then cmd.operand
            else s.instrPtr + 1 })) ∧
      (cmd.operator = .jmpNonZero →
        step cmds s = some (.ok { s with
          instrPtr := if s.mem s.memPtr ≠ 0 then cmd.operand
            else s.instrPtr + 1 })) ∧
      (cmd.operator ≠ .jmpZero → cmd.operator ≠ .jmpNonZero →
        ∀ s1, step cmds s = some (.ok s1) →
          s1.instrPtr = s.instrPtr + 1)) ∧
    (∀ cmds fuel s s1, run cmds fuel s = .halted s1 →
      cmds.length ≤ s1.instrPtr) := by
  refine ⟨fun _ => rfl, step_none_iff, ?_, ?_, ?_⟩
  · intro cmds s hle
    rw [step_none_iff]
    omega
  · intro cmds s cmd h
    obtain ⟨op, k⟩ := cmd
    refine ⟨?_, ?_, ?_⟩
    · intro hop
      cases hop
      simp [step, h]
    · intro hop
      cases hop
      simp [step, h]
    · intro h1 h2 s1 hs1
      cases op with
      | jmpZero => exact absurd rfl h1
      | jmpNonZero => exact absurd rfl h2
      | add =>
        simp only [step, h, Option.some.injEq, Except.ok.injEq] at hs1
        rw [← hs1]
      | sub =>
        simp only [step, h, Option.some.injEq, Except.ok.injEq] at hs1
        rw [← hs1]
      | left =>
        simp only [step, h, Option.some.injEq, Except.ok.injEq] at hs1
        rw [← hs1]
      | right =>
        simp only [step, h, Option.some.injEq, Except.ok.injEq] at hs1
        rw [← hs1]
      | out =>
        by_cases hc : s.mem s.memPtr ≤ 127
        · simp only [step, h, if_pos hc, Option.some.injEq,
            Except.ok.injEq] at hs1
          rw [← hs1]
        · simp [step, h, if_neg hc] at hs1
      | inp =>
        cases hin : s.input with
        | nil =>
          simp only [step, h, hin, Option.some.injEq, Except.ok.injEq] at hs1
          rw [← hs1]
        | cons l r =>
          simp only [step, h, hin, Option.some.injEq, Except.ok.injEq] at hs1
          rw [← hs1]
  · exact fun cmds fuel => run_halted_length cmds fuel

theorem exec_step_pointer_semantics_witness :
    step [⟨Op.jmpZero, 2⟩] (initSt []) =
      some (.ok { initSt [] with instrPtr := 2 }) := by
  have h := ((exec_step_pointer_semantics.2.2.2.1 [⟨Op.jmpZero, 2⟩]
    (initSt []) ⟨Op.jmpZero, 2⟩ rfl).1 rfl)
  simpa [initSt] using h

/-- Claim C3: adding via `add` stores (cell + operand) mod 256, subtracting
via `sub` stores (cell - operand) mod 256 in the integer (wraparound)
sense; and on a fresh tape, `n` increments followed by one decrement leave
(n - 1) mod 256 in the cell, and `n` decrements followed by one increment
leave (1 - n) mod 256, for every n in 0..256. -/
theorem cell_arith_mod256 :
    (∀ cmds s cmd, cmds[s.instrPtr]? = some cmd → cmd.operator = .add →
      step cmds s = some (.ok { s with
        mem := writeCell s.mem s.memPtr ((s.mem s.memPtr + cmd.operand) % 256)
        instrPtr := s.instrPtr + 1 })) ∧
    (∀ cmds s cmd, cmds[s.instrPtr]? = some cmd → cmd.operator = .sub →
      step cmds s = some (.ok { s with
        mem := writeCell s.mem s.memPtr
          ((((s.mem s.memPtr : Int) - (cmd.operand : Int)) % 256).toNat)
        instrPtr := s.instrPtr + 1 })) ∧
    (∀ n, n < 256 →
      outcomeCell (run [⟨.add, n⟩, ⟨.sub, 1⟩] 3 (initSt [])) =
        some ((((n : Int) - 1) % 256).toNat)) ∧
    (∀ n, n < 256 →
      outcomeCell (run [⟨.sub, n⟩, ⟨.add, 1⟩] 3 (initSt [])) =
        some (((1 - (n : Int)) % 256).toNat)) := by
  refine ⟨?_, ?_, ?_, ?_⟩
  · intro cmds s cmd h hop
    obtain ⟨op, k⟩ := cmd
    cases hop
    simp only [step, h]
    have hv : (s.mem s.memPtr + k % 256) % 256 = (s.mem s.memPtr + k) % 256 := by
      omega
    rw [hv]
  · intro cmds s cmd h hop
    obtain ⟨op, k⟩ := cmd
    cases hop
    simp only [step, h]
    have hv : (s.mem s.memPtr + (256 - k % 256)) % 256 =
        (((s.mem s.memPtr : Int) - (k : Int)) % 256).toNat := by
      omega
    rw [hv]
  · intro n hn
    simp [run, step, outcomeCell, initSt, writeCell]
    omega
  · intro n hn
    simp [run, step, outcomeCell, initSt, writeCell]
    omega

theorem cell_arith_mod256_witness :
    outcomeCell (run [⟨.add, 0⟩, ⟨.sub, 1⟩] 3 (initSt [])) =
      some ((((0 : Int) - 1) % 256).toNat) :=
  cell_arith_mod256.2.2.1 0 (by omega)

/-- Claim C4: `right` adds its operand to the memory pointer modulo the
tape length 30000, `left` subtracts modulo 30000 in the integer
(wraparound) sense, and moving right by n then left by n from any valid
starting position restores the original pointer, for every n (including n
beyond the tape length). -/
theorem pointer_move_roundtrip :
    (∀ cmds s cmd, cmds[s.instrPtr]? = some cmd → cmd.operator = .right →
      step cmds s = some (.ok { s with
        memPtr := (s.memPtr + cmd.operand) % MEM_SIZE
        instrPtr := s.instrPtr + 1 })) ∧
    (∀ cmds s cmd, cmds[s.instrPtr]? = some cmd → cmd.operator = .left →
      step cmds s = some (.ok { s with
        memPtr := (((s.memPtr : Int) - (cmd.operand : Int)) %
          (MEM_SIZE : Int)).toNat
        instrPtr := s.instrPtr + 1 })) ∧
    (∀ p n : Nat, p < MEM_SIZE → ∀ input,
      outcomeMemPtr (run [⟨.right, n⟩, ⟨.left, n⟩] 3
        { mem := (fun _ => 0), memPtr := p, instrPtr := 0, input := input,
          output := [] }) = some p) := by
  refine ⟨?_, ?_, ?_⟩
  · intro cmds s cmd h hop
    obtain ⟨op, k⟩ := cmd
    cases hop
    simp [step, h]
  · intro cmds s cmd h hop
    obtain ⟨op, k⟩ := cmd
    cases hop
    simp [step, h]
  · intro p n hp input
    simp only [run, step, outcomeMemPtr, MEM_SIZE] at *
    simp
    omega

theorem pointer_move_roundtrip_witness :
    outcomeMemPtr (run [⟨.right, 70001⟩, ⟨.left, 70001⟩] 3
      { mem := (fun _ => 0), memPtr := 5, instrPtr := 0, input := [],
        output := [] }) = some 5 :=
  pointer_move_roundtrip.2.2 5 70001 (by simp [MEM_SIZE]) []

/-- Claim C5 as amended: `inp` ignores its operand entirely; it consumes
one line of input and stores that line's last character code, truncated to
a byte, into the current cell; at end of input (or on an empty line) it
stores 0 and the program does not fail.  The third conjunct makes the
operand-independence explicit: any two `inp` instructions step
identically from the same state. -/
theorem read_input_line_semantics :
    ∀ cmds s cmd, cmds[s.instrPtr]? = some cmd → cmd.operator = .inp →
      (s.input = [] →
        step cmds s = some (.ok { s with
          mem := writeCell s.mem s.memPtr 0
          instrPtr := s.instrPtr + 1 })) ∧
      (∀ line rest, s.input = line :: rest →
        step cmds s = some (.ok { s with
          mem := writeCell s.mem s.memPtr ((line.getLast?.getD 0) % 256)
          input := rest
          instrPtr := s.instrPtr + 1 })) ∧
      (∀ cmds2 cmd2, cmds2[s.instrPtr]? = some cmd2 →
        cmd2.operator = .inp → step cmds2 s = step cmds s) := by
  intro cmds s cmd h hop
  obtain ⟨op, k⟩ := cmd
  cases hop
  refine ⟨?_, ?_, ?_⟩
  · intro hin
    simp [step, h, hin]
  · intro line rest hin
    simp [step, h, hin]
  · intro cmds2 cmd2 h2 hop2
    obtain ⟨op2, k2⟩ := cmd2
    cases hop2
    simp only [step, h, h2]

/-- Counterexample to claim C5 as stated: the claim says `ReadInput(1)`
reads exactly one byte and stores it (so on the input line "ab", character
codes [97, 98], it would store 97 and leave 98 unread); the code instead
consumes the entire line and stores its last character 98. -/
theorem read_input_count_cex :
    outcomeCell (run [⟨.inp, 1⟩] 2 (initSt [[97, 98]])) = some 98 ∧
    outcomeInput (run [⟨.inp, 1⟩] 2 (initSt [[97, 98]])) = some [] ∧
    (98 : Nat) ≠ 97 :=
  ⟨rfl, rfl, by decide⟩

theorem read_input_line_semantics_witness :
    step [⟨Op.inp, 3⟩] (initSt [[97, 98]]) =
      some (.ok { initSt [[97, 98]] with
        mem := writeCell (initSt [[97, 98]]).mem 0 98
        input := []
        instrPtr := 1 }) := by
  have h := (read_input_line_semantics [⟨Op.inp, 3⟩] (initSt [[97, 98]])
    ⟨Op.inp, 3⟩ rfl rfl).2.1 [97, 98] [] rfl
  simpa [initSt] using h

/-- Claim C6: `out` writes the current cell exactly operand-many times to
the output when the cell is an accepted ASCII byte (at most 127, the
`u8::is_ascii` test), and otherwise the whole run aborts fatally with the
invalid-output-byte error. -/
theorem write_output_ascii_or_abort :
    ∀ cmds s cmd, cmds[s.instrPtr]? = some cmd → cmd.operator = .out →
      (s.mem s.memPtr ≤ 127 →
        step cmds s = some (.ok { s with
          output := s.output ++ List.replicate cmd.operand (s.mem s.memPtr)
          instrPtr := s.instrPtr + 1 })) ∧
      (127 < s.mem s.memPtr →
        step cmds s = some (.error .invalidOutputByte) ∧
        ∀ fuel, run cmds (fuel + 1) s = .err .invalidOutputByte) := by
  intro cmds s cmd h hop
  obtain ⟨op, k⟩ := cmd
  cases hop
  constructor
  · intro hc
    simp [step, h, hc]
  · intro hc
    have hs : step cmds s = some (.error .invalidOutputByte) := by
      simp [step, h]
      omega
    refine ⟨hs, ?_⟩
    intro fuel
    rw [run, hs]

theorem write_output_ascii_or_abort_witness :
    step [⟨Op.out, 2⟩] (St.mk (fun _ => 65) 0 0 [] []) =
      some (.ok (St.mk (fun _ => 65) 0 1 [] [65, 65])) := by
  have h := (write_output_ascii_or_abort [⟨Op.out, 2⟩]
    (St.mk (fun _ => 65) 0 0 [] []) ⟨Op.out, 2⟩ rfl rfl).1 (by decide)
  simpa using h

/-- Counterexample to claim C7 as stated: in the token sequence `[[` both
opens are unmatched; the older one is instruction 0 (witnessed by the
pending-opens scan, whose last element is the oldest), yet parsing reports
`UnclosedBracket 1` — the newest unmatched `[` — and not 0. -/
theorem unclosed_reports_newest_cex :
    pendingOpens [Op.jmpZero, Op.jmpZero] [] 0 = some [1, 0] ∧
    ([1, 0] : List Nat).getLast? = some 0 ∧
    parseAll [Op.jmpZero, Op.jmpZero] = .error (.unclosedBracket 1) ∧
    parseAll [Op.jmpZero, Op.jmpZero] ≠ .error (.unclosedBracket 0) := by
  refine ⟨by simp [pendingOpens], rfl, by simp [parseAll, parseGo], ?_⟩
  have h : parseAll [Op.jmpZero, Op.jmpZero] = .error (.unclosedBracket 1) := by
    simp [parseAll, parseGo]
  rw [h]
  intro hc
  simp at hc

/-- Claim C7 as amended: when the token sequence leaves at least one
`jmpZero` unmatched after all tokens are consumed, parsing fails with
`UnclosedBracket i` where `i` is the instruction-list position of the most
recently opened (newest, innermost) unmatched `[` — the head of the
pending-opens scan — not the oldest. -/
theorem unclosed_reports_newest (tokens : List Op) (i : Nat) (r : List Nat)
    (h : pendingOpens tokens [] 0 = some (i :: r)) :
    parseAll tokens = .error (.unclosedBracket i) :=
  pendingOpens_unclosed tokens.length tokens [] [] i r (le_refl _)
    (by simpa using h)

theorem unclosed_reports_newest_witness :
    parseAll [Op.jmpZero] = .error (.unclosedBracket 0) :=
  unclosed_reports_newest [Op.jmpZero] 0 [] (by simp [pendingOpens])

/-- Claim C8: when some `]` has no matching earlier unmatched `[`, parsing
fails with `UnopenedBracket m` where `m` is the number of instructions
emitted before that `]` (computed here by the depth scan
`firstUnopened`), and the composed program runner surfaces exactly this
parse error without executing any instruction. -/
theorem unopened_bracket_error (tokens : List Op) (m : Nat)
    (h : firstUnopened tokens 0 0 = some m) :
    parseAll tokens = .error (.unopenedBracket m) ∧
    ∀ input fuel, runProgram tokens input fuel =
      .parseFail (.unopenedBracket m) := by
  have hp : parseAll tokens = .error (.unopenedBracket m) :=
    firstUnopened_unopened tokens.length tokens [] [] m (le_refl _)
      (by simpa using h)
  exact ⟨hp, fun input fuel => by simp [runProgram, hp]⟩

theorem unopened_bracket_error_witness :
    parseAll [Op.add, Op.add, Op.jmpNonZero] = .error (.unopenedBracket 1) ∧
    runProgram [Op.add, Op.add, Op.jmpNonZero] [] 5 =
      .parseFail (.unopenedBracket 1) := by
  have h := unopened_bracket_error [Op.add, Op.add, Op.jmpNonZero] 1
    (by simp [firstUnopened, takeRun])
  exact ⟨h.1, h.2 [] 5⟩

/-- Claim C10: the parser is total — modelling the Rust indexing panic
explicitly, the checked parser never panics and agrees with the total
embedding, for every token sequence and every parser state whose pending
stack only holds in-range indices (in particular from the initial empty
state); every back-patch write is in bounds because every index on the
jump stack stays below the instruction-list length. -/
theorem parse_total_no_panic (tokens : List Op) (cmds : List Cmd)
    (stk : List Nat) (hstk : ∀ e ∈ stk, e < cmds.length) :
    parseGoChecked tokens cmds stk = some (parseGo tokens cmds stk) :=
  parseGoChecked_eq tokens.length tokens cmds stk (le_refl _) hstk

theorem parse_total_no_panic_witness :
    parseGoChecked [Op.jmpZero, Op.jmpNonZero, Op.jmpNonZero] [] [] =
      some (parseGo [Op.jmpZero, Op.jmpNonZero, Op.jmpNonZero] [] []) :=
  parse_total_no_panic [Op.jmpZero, Op.jmpNonZero, Op.jmpNonZero] [] []
    (by intro e he; exact absurd he (List.not_mem_nil _))

theorem unitStep_instrPtr (op : Op) (hop : op ∈ collapsibleOps) (s : St) :
    (unitStep op s).instrPtr = s.instrPtr + 1 := by
  fin_cases hop <;> rfl

theorem step_replicate_unit (op : Op) (hop : op ∈ collapsibleOps) (L : Nat)
    (s : St) (hlt : s.instrPtr < L) (hok : op = .out → s.mem s.memPtr ≤ 127) :
    step (List.replicate L ⟨op, 1⟩) s = some (.ok (unitStep op s)) := by
  have hget : (List.replicate L (⟨op, 1⟩ : Cmd))[s.instrPtr]? =
      some ⟨op, 1⟩ := by
    rw [List.getElem?_replicate, if_pos hlt]
  fin_cases hop
  · simp [step, hget, unitStep]
  · simp [step, hget, unitStep]
  · simp [step, hget, unitStep]
  · simp [step, hget, unitStep]
  · have hc := hok rfl
    simp [step, hget, unitStep, hc]

theorem run_replicate (op : Op) (hop : op ∈ collapsibleOps) :
    ∀ (m : Nat) (s : St), (op = .out → s.mem s.memPtr ≤ 127) →
      run (List.replicate (s.instrPtr + m) ⟨op, 1⟩) (m + 1) s =
        .halted ((unitStep op)^[m] s) := by
  intro m
  induction m with
  | zero =>
    intro s hok
    have hnone : step (List.replicate s.instrPtr (⟨op, 1⟩ : Cmd)) s =
        none := by
      rw [step_none_iff]
      simp
    simp [run, hnone]
  | succ j ih =>
    intro s hok
    have hstep := step_replicate_unit op hop (s.instrPtr + (j + 1)) s
      (by omega) hok
    have hok2 : op = .out →
        (unitStep op s).mem (unitStep op s).memPtr ≤ 127 := by
      intro he
      subst he
      simpa [unitStep] using hok rfl
    have ih2 := ih (unitStep op s) hok2
    rw [unitStep_instrPtr op hop] at ih2
    have harr : s.instrPtr + 1 + j = s.instrPtr + (j + 1) := by omega
    rw [harr] at ih2
    calc run (List.replicate (s.instrPtr + (j + 1)) ⟨op, 1⟩) (j + 1 + 1) s =
        run (List.replicate (s.instrPtr + (j + 1)) ⟨op, 1⟩) (j + 1)
          (unitStep op s) := by
          simp only [run, hstep]
      _ = .halted ((unitStep op)^[j] (unitStep op s)) := ih2
      _ = .halted ((unitStep op)^[j + 1] s) := by
          rw [← Function.iterate_succ_apply]

theorem unitStep_add_iterate (k : Nat) (s : St) :
    (unitStep .add)^[k + 1] s =
      { s with
        mem := writeCell s.mem s.memPtr ((s.mem s.memPtr + (k + 1)) % 256)
        instrPtr := s.instrPtr + (k + 1) } := by
  induction k with
  | zero =>
    rw [Function.iterate_one]
    rfl
  | succ j ih =>
    rw [Function.iterate_succ_apply', ih]
    refine St.ext ?_ rfl ?_ rfl rfl
    · show writeCell (writeCell s.mem s.memPtr ((s.mem s.memPtr + (j + 1)) % 256))
          s.memPtr
          ((writeCell s.mem s.memPtr ((s.mem s.memPtr + (j + 1)) % 256)
            s.memPtr + 1) % 256) =
        writeCell s.mem s.memPtr ((s.mem s.memPtr + (j + 1 + 1)) % 256)
      rw [writeCell_writeCell, writeCell_read]
      have hv : ((s.mem s.memPtr + (j + 1)) % 256 + 1) % 256 =
          (s.mem s.memPtr + (j + 1 + 1)) % 256 := by omega
      rw [hv]
    · show s.instrPtr + (j + 1) + 1 = s.instrPtr + (j + 1 + 1)
      omega

theorem unitStep_sub_iterate (k : Nat) (s : St) :
    (unitStep .sub)^[k + 1] s =
      { s with
        mem := writeCell s.mem s.memPtr
          ((s.mem s.memPtr + 255 * (k + 1)) % 256)
        instrPtr := s.instrPtr + (k + 1) } := by
  induction k with
  | zero =>
    rw [Function.iterate_one]
    rfl
  | succ j ih =>
    rw [Function.iterate_succ_apply', ih]
    refine St.ext ?_ rfl ?_ rfl rfl
    · show writeCell
          (writeCell s.mem s.memPtr ((s.mem s.memPtr + 255 * (j + 1)) % 256))
          s.memPtr
          ((writeCell s.mem s.memPtr ((s.mem s.memPtr + 255 * (j + 1)) % 256)
            s.memPtr + 255) % 256) =
        writeCell s.mem s.memPtr ((s.mem s.memPtr + 255 * (j + 1 + 1)) % 256)
      rw [writeCell_writeCell, writeCell_read]
      have hv : ((s.mem s.memPtr + 255 * (j + 1)) % 256 + 255) % 256 =
          (s.mem s.memPtr + 255 * (j + 1 + 1)) % 256 := by omega
      rw [hv]
    · show s.instrPtr + (j + 1) + 1 = s.instrPtr + (j + 1 + 1)
      omega

theorem unitStep_left_iterate (k : Nat) (s : St) :
    (unitStep .left)^[k + 1] s =
      { s with
        memPtr := (((s.memPtr : Int) - ((k + 1 : Nat) : Int)) %
          (MEM_SIZE : Int)).toNat
        instrPtr := s.instrPtr + (k + 1) } := by
  induction k with
  | zero =>
    rw [Function.iterate_one]
    refine St.ext rfl ?_ rfl rfl rfl
    show (((s.memPtr : Int) - 1) % (MEM_SIZE : Int)).toNat =
      (((s.memPtr : Int) - ((0 + 1 : Nat) : Int)) % (MEM_SIZE : Int)).toNat
    norm_num
  | succ j ih =>
    rw [Function.iterate_succ_apply', ih]
    refine St.ext rfl ?_ ?_ rfl rfl
    · show (((((((s.memPtr : Int) - ((j + 1 : Nat) : Int)) %
            (MEM_SIZE : Int)).toNat : Nat) : Int) - 1) %
          (MEM_SIZE : Int)).toNat =
        (((s.memPtr : Int) - ((j + 1 + 1 : Nat) : Int)) %
          (MEM_SIZE : Int)).toNat
      simp only [MEM_SIZE]
      rw [Int.toNat_of_nonneg (Int.emod_nonneg _ (by norm_num))]
      omega
    · show s.instrPtr + (j + 1) + 1 = s.instrPtr + (j + 1 + 1)
      omega

theorem unitStep_right_iterate (k : Nat) (s : St) :
    (unitStep .right)^[k + 1] s =
      { s with
        memPtr := (s.memPtr + (k + 1)) % MEM_SIZE
        instrPtr := s.instrPtr + (k + 1) } := by
  induction k with
  | zero =>
    rw [Function.iterate_one]
    rfl
  | succ j ih =>
    rw [Function.iterate_succ_apply', ih]
    refine St.ext rfl ?_ ?_ rfl rfl
    · show ((s.memPtr + (j + 1)) % MEM_SIZE + 1) % MEM_SIZE =
        (s.memPtr + (j + 1 + 1)) % MEM_SIZE
      simp only [MEM_SIZE]
      omega
    · show s.instrPtr + (j + 1) + 1 = s.instrPtr + (j + 1 + 1)
      omega

theorem unitStep_out_iterate (k : Nat) (s : St) :
    (unitStep .out)^[k + 1] s =
      { s with
        output := s.output ++ List.replicate (k + 1) (s.mem s.memPtr)
        instrPtr := s.instrPtr + (k + 1) } := by
  induction k with
  | zero =>
    rw [Function.iterate_one]
    rfl
  | succ j ih =>
    rw [Function.iterate_succ_apply', ih]
    refine St.ext rfl rfl ?_ rfl ?_
    · show s.instrPtr + (j + 1) + 1 = s.instrPtr + (j + 1 + 1)
      omega
    · show (s.output ++ List.replicate (j + 1) (s.mem s.memPtr)) ++
          [s.mem s.memPtr] =
        s.output ++ List.replicate (j + 1 + 1) (s.mem s.memPtr)
      rw [List.append_assoc]
      congr 1
      exact (List.replicate_succ' (j + 1) _).symm

theorem run_single_ok (c : Cmd) (s s1 : St)
    (hs : step [c] s = some (.ok s1)) (h1 : s1.instrPtr = 1) :
    run [c] 2 s = .halted s1 := by
  have hnone : step [c] s1 = none := by
    rw [step_none_iff, h1]
    simp
  simp only [run, hs, hnone]

theorem run_err_of_step (cmds : List Cmd) (s : St) (e : RuntimeError)
    (fuel : Nat) (hs : step cmds s = some (.error e)) :
    run cmds (fuel + 1) s = .err e := by
  rw [run, hs]

/-- Counterexample to claim C9 as stated: the token run `,,` collapses to
one instruction `inp` with operand 2, but executing that collapsed
instruction is not equivalent to executing `,` twice: on input lines
[97] and [98] the collapsed form reads one line (cell 97, one line left),
while the expanded form reads two lines (cell 98, no input left) — tape
and I/O both differ. -/
theorem collapse_input_semantics_cex :
    parseAll [Op.inp, Op.inp] = .ok [⟨.inp, 2⟩] ∧
    outcomeCell (run [⟨.inp, 2⟩] 2 (initSt [[97], [98]])) = some 97 ∧
    outcomeInput (run [⟨.inp, 2⟩] 2 (initSt [[97], [98]])) = some [[98]] ∧
    outcomeCell (run [⟨.inp, 1⟩, ⟨.inp, 1⟩] 3 (initSt [[97], [98]])) =
      some 98 ∧
    outcomeInput (run [⟨.inp, 1⟩, ⟨.inp, 1⟩] 3 (initSt [[97], [98]])) =
      some [] := by
  refine ⟨?_, rfl, rfl, rfl, rfl⟩
  simp [parseAll, parseGo, takeRun]

/-- Claim C9 as amended: (a) for every maximal run of m+1 consecutive
identical simple operators, the parser emits exactly one instruction
carrying operand m+1 and resumes from the first differing token without
consuming it twice; (b) executing the collapsed instruction is
semantically equivalent (same tape, same memory pointer, same I/O,
modulo the instruction pointer) to executing each of the operators once —
for the five simple operators other than `inp`.  `inp` is excluded
because the interpreter ignores its operand and always reads one line, so
collapsing changes its semantics (see the counterexample). -/
theorem collapse_equiv_amended :
    (∀ (op : Op) (m : Nat) (rest : List Op) (cmds : List Cmd)
      (stk : List Nat), op ∈ simpleOps → rest.head? ≠ some op →
      parseGo (List.replicate (m + 1) op ++ rest) cmds stk =
        parseGo rest (cmds ++ [{ operator := op, operand := m + 1 }]) stk) ∧
    (∀ (op : Op) (k : Nat) (s : St), op ∈ collapsibleOps → s.instrPtr = 0 →
      (∃ s1 s2, run [⟨op, k + 1⟩] 2 s = .halted s1 ∧
        run (List.replicate (k + 1) ⟨op, 1⟩) (k + 1 + 1) s = .halted s2 ∧
        coreEq s1 s2) ∨
      (∃ e, run [⟨op, k + 1⟩] 2 s = .err e ∧
        run (List.replicate (k + 1) ⟨op, 1⟩) (k + 1 + 1) s = .err e)) := by
  constructor
  · intro op m rest cmds stk hop hhead
    have hrepl : List.replicate (m + 1) op ++ rest =
        op :: (List.replicate m op ++ rest) := by
      rw [List.replicate_succ, List.cons_append]
    have htr : takeRun op (List.replicate m op ++ rest) = (m, rest) :=
      takeRun_replicate op m rest hhead
    rw [hrepl]
    fin_cases hop <;> simp [parseGo, htr]
  · intro op k s hop hptr
    obtain ⟨m0, p0, i0, in0, o0⟩ := s
    replace hptr : i0 = 0 := hptr
    subst hptr
    fin_cases hop
    · left
      refine ⟨St.mk (writeCell m0 p0 ((m0 p0 + (k + 1) % 256) % 256)) p0 1
        in0 o0, (unitStep .add)^[k + 1] (St.mk m0 p0 0 in0 o0), ?_, ?_, ?_⟩
      · exact run_single_ok _ _ _ rfl rfl
      · have h := run_replicate .add (by decide) (k + 1)
          (St.mk m0 p0 0 in0 o0) (fun he => Op.noConfusion he)
        simpa using h
      · rw [unitStep_add_iterate]
        refine ⟨?_, rfl, rfl, rfl⟩
        show writeCell m0 p0 ((m0 p0 + (k + 1) % 256) % 256) =
          writeCell m0 p0 ((m0 p0 + (k + 1)) % 256)
        have hv : (m0 p0 + (k + 1) % 256) % 256 =
            (m0 p0 + (k + 1)) % 256 := by omega
        rw [hv]
    · left
      refine ⟨St.mk (writeCell m0 p0 ((m0 p0 + (256 - (k + 1) % 256)) % 256))
        p0 1 in0 o0, (unitStep .sub)^[k + 1] (St.mk m0 p0 0 in0 o0),
        ?_, ?_, ?_⟩
      · exact run_single_ok _ _ _ rfl rfl
      · have h := run_replicate .sub (by decide) (k + 1)
          (St.mk m0 p0 0 in0 o0) (fun he => Op.noConfusion he)
        simpa using h
      · rw [unitStep_sub_iterate]
        refine ⟨?_, rfl, rfl, rfl⟩
        show writeCell m0 p0 ((m0 p0 + (256 - (k + 1) % 256)) % 256) =
          writeCell m0 p0 ((m0 p0 + 255 * (k + 1)) % 256)
        have hv : (m0 p0 + (256 - (k + 1) % 256)) % 256 =
            (m0 p0 + 255 * (k + 1)) % 256 := by omega
        rw [hv]
    · left
      refine ⟨St.mk m0 ((((p0 : Int) - ((k + 1 : Nat) : Int)) %
        (MEM_SIZE : Int)).toNat) 1 in0 o0,
        (unitStep .left)^[k + 1] (St.mk m0 p0 0 in0 o0), ?_, ?_, ?_⟩
      · exact run_single_ok _ _ _ rfl rfl
      · have h := run_replicate .left (by decide) (k + 1)
          (St.mk m0 p0 0 in0 o0) (fun he => Op.noConfusion he)
        simpa using h
      · rw [unitStep_left_iterate]
        exact ⟨rfl, rfl, rfl, rfl⟩
    · left
      refine ⟨St.mk m0 ((p0 + (k + 1)) % MEM_SIZE) 1 in0 o0,
        (unitStep .right)^[k + 1] (St.mk m0 p0 0 in0 o0), ?_, ?_, ?_⟩
      · exact run_single_ok _ _ _ rfl rfl
      · have h := run_replicate .right (by decide) (k + 1)
          (St.mk m0 p0 0 in0 o0) (fun he => Op.noConfusion he)
        simpa using h
      · rw [unitStep_right_iterate]
        exact ⟨rfl, rfl, rfl, rfl⟩
    · by_cases hc : m0 p0 ≤ 127
      · left
        refine ⟨St.mk m0 p0 1 in0 (o0 ++ List.replicate (k + 1) (m0 p0)),
          (unitStep .out)^[k + 1] (St.mk m0 p0 0 in0 o0), ?_, ?_, ?_⟩
        · refine run_single_ok _ _ _ ?_ rfl
          simp [step, hc]
        · have h := run_replicate .out (by decide) (k + 1)
            (St.mk m0 p0 0 in0 o0) (fun _ => hc)
          simpa using h
        · rw [unitStep_out_iterate]
          exact ⟨rfl, rfl, rfl, rfl⟩
      · right
        refine ⟨.invalidOutputByte, ?_, ?_⟩
        · refine run_err_of_step _ _ _ 1 ?_
          simp [step, hc]
        · refine run_err_of_step _ _ _ (k + 1) ?_
          have hget : (List.replicate (k + 1) (⟨Op.out, 1⟩ : Cmd))[(0 : Nat)]? =
              some ⟨Op.out, 1⟩ := by
            rw [List.getElem?_replicate, if_pos (by omega)]
          simp [step, hget, hc]

theorem collapse_equiv_amended_witness :
    parseGo [Op.add, Op.add, Op.sub] [] [] =
      parseGo [Op.sub] [{ operator := Op.add, operand := 2 }] [] ∧
    ((∃ s1 s2, run [⟨Op.add, 2⟩] 2 (initSt []) = .halted s1 ∧
        run (List.replicate 2 ⟨Op.add, 1⟩) 3 (initSt []) = .halted s2 ∧
        coreEq s1 s2) ∨
      (∃ e, run [⟨Op.add, 2⟩] 2 (initSt []) = .err e ∧
        run (List.replicate 2 ⟨Op.add, 1⟩) 3 (initSt []) = .err e)) := by
  constructor
  · have h := collapse_equiv_amended.1 Op.add 1 [Op.sub] [] []
      (by decide) (by decide)
    simpa using h
  · have h := collapse_equiv_amended.2 Op.add 1 (initSt []) (by decide) rfl
    simpa using h

end BF
